import Mathlib

/-!
Verification of the frampton-core reactive `Signal` dataflow engine and of the
`Task` async-computation abstraction.

The `Task` class is translated from `src/unnamed/part_000` (TypeScript).  The
`Signal` module itself is not among the source files (only its test suite,
`src/tests/data/signal.spec.ts`, is), so the Signal node type, its propagation
algorithm and its combinators are modelled from the specification, and checked
against the behaviour the test suite pins down.

Modelling conventions:
* Values carried by a signal graph live in one type `V` with decidable
  equality; the repository's deep/structural equality helper `isEqual` is
  modelled as that decidable equality.
* A signal's `value: T | undefined` / `hasValue` pair is one `Option V`.
* The parent-owns-children graph is a rose tree: each node stores its
  combinator kind, its current value and the ordered list of its children.
  `merge`, whose child has two parents, is modelled separately (see below).
-/

namespace Frampton

variable {V : Type}

/-- Modelled from the spec: the combinator kind of a Signal node
(the `src/data/signal` module is missing from the sources).  A node created by
`create` is a `source`; each combinator creates a child of the matching kind.
The `debounceK` kind also carries the node's timer state: `pending = none`
is the idle state, `pending = some v` means a timer is scheduled that will
deliver `v` (the most recently seen parent value) when it fires. -/
inductive SigKind (V : Type) where
  | source : SigKind V
  | mapK (f : V → V) : SigKind V
  | filterK (p : V → Bool) : SigKind V
  | foldK (combine : V → V → V) : SigKind V
  | dropRepeatsK : SigKind V
  | mergeK : SigKind V
  | debounceK (delay : Nat) (pending : Option V) : SigKind V

/-- Modelled from the spec: a Signal node — its combinator kind, its current
value (`none` = `hasValue` is false), and its ordered list of children. -/
inductive Signal (V : Type) : Type where
  | mk (kind : SigKind V) (value : Option V) (children : List (Signal V)) : Signal V

/-- The combinator kind of a node. -/
def Signal.kind : Signal V → SigKind V
  | .mk k _ _ => k

/-- The current value of a node (`none` when it has never held a value). -/
def Signal.value : Signal V → Option V
  | .mk _ v _ => v

/-- The children of a node, in insertion order. -/
def Signal.children : Signal V → List (Signal V)
  | .mk _ _ cs => cs

/-- Modelled from the spec: a parent that has just taken value `v` notifies a
child; the child's kind decides whether a value is delivered to the child and
which one.  A delivered value is pushed into the child (its value is set and
its own children are notified with it, depth first).  A `filter` child whose
predicate rejects `v`, a `dropRepeats` child whose last delivered value equals
`v`, and a `fold` child that was never seeded deliver nothing and are left
unchanged, so the wave stops there.  A `debounce` child delivers nothing
synchronously: it only resets its single pending timer to carry `v`
(cancelling any previously scheduled value). -/
def Signal.notify [DecidableEq V] : Signal V → V → Signal V
  | .mk kind value children, v =>
    let delivered : Option V :=
      match kind with
      | .source => some v
      | .mapK f => some (f v)
      | .filterK p => if p v then some v else none
      | .foldK combine =>
        match value with
        | some acc => some (combine acc v)
        | none => none
      | .dropRepeatsK => if value = some v then none else some v
      | .mergeK => some v
      | .debounceK _ _ => none
    match delivered with
    | some nv => .mk kind (some nv) (children.attach.map fun c => Signal.notify c.1 nv)
    | none =>
      match kind with
      | .debounceK delay _ => .mk (.debounceK delay (some v)) value children
      | k => .mk k value children
decreasing_by
  have h := List.sizeOf_lt_of_mem c.2
  simp only [Signal.mk.sizeOf_spec]
  omega

/-- Modelled from the spec: `push(signal, value)` sets the signal's value and
then notifies every child, in insertion order, with the new value. -/
def Signal.push [DecidableEq V] : Signal V → V → Signal V
  | .mk kind _ children, v => .mk kind (some v) (children.map fun c => c.notify v)

/-- Modelled from the spec: `create(initial?)` returns a fresh source node with
no children. -/
def Signal.create (v : Option V) : Signal V := .mk .source v []

/-- Pushing a list of values into a signal, one after the other. -/
def pushList [DecidableEq V] (s : Signal V) (vs : List V) : Signal V :=
  vs.foldl Signal.push s

/-- Modelled from the spec: when a debounce node's timer fires, the pending
value is delivered to the node by a normal push (setting its value and
notifying its children) and the timer state returns to idle.  On any
non-debounce node, or a debounce node with no pending timer, nothing happens. -/
def Signal.fireTimer [DecidableEq V] : Signal V → Signal V
  | .mk (.debounceK d (some pv)) value children =>
      Signal.push (.mk (.debounceK d none) value children) pv
  | s => s

section NotifyLemmas

variable [DecidableEq V]

theorem notify_source (val : Option V) (cs : List (Signal V)) (v : V) :
    Signal.notify (.mk .source val cs) v
      = .mk .source (some v) (cs.map fun c => c.notify v) := by
  rw [Signal.notify]
  simp [List.attach_map_val]

theorem notify_mapK (f : V → V) (val : Option V) (cs : List (Signal V)) (v : V) :
    Signal.notify (.mk (.mapK f) val cs) v
      = .mk (.mapK f) (some (f v)) (cs.map fun c => c.notify (f v)) := by
  rw [Signal.notify]
  simp [List.attach_map_val]

theorem notify_filter_true (p : V → Bool) (val : Option V) (cs : List (Signal V)) (v : V)
    (h : p v = true) :
    Signal.notify (.mk (.filterK p) val cs) v
      = .mk (.filterK p) (some v) (cs.map fun c => c.notify v) := by
  rw [Signal.notify]
  simp [h, List.attach_map_val]

theorem notify_filter_false (p : V → Bool) (val : Option V) (cs : List (Signal V)) (v : V)
    (h : p v = false) :
    Signal.notify (.mk (.filterK p) val cs) v = .mk (.filterK p) val cs := by
  rw [Signal.notify]
  simp [h]

theorem notify_foldK (combine : V → V → V) (acc : V) (cs : List (Signal V)) (v : V) :
    Signal.notify (.mk (.foldK combine) (some acc) cs) v
      = .mk (.foldK combine) (some (combine acc v))
          (cs.map fun c => c.notify (combine acc v)) := by
  rw [Signal.notify]
  simp [List.attach_map_val]

theorem notify_dropRepeats (val : Option V) (cs : List (Signal V)) (v : V) :
    Signal.notify (.mk .dropRepeatsK val cs) v
      = if val = some v then .mk .dropRepeatsK val cs
        else .mk .dropRepeatsK (some v) (cs.map fun c => c.notify v) := by
  rw [Signal.notify]
  by_cases h : val = some v <;> simp [h, List.attach_map_val]

theorem notify_mergeK (val : Option V) (cs : List (Signal V)) (v : V) :
    Signal.notify (.mk .mergeK val cs) v
      = .mk .mergeK (some v) (cs.map fun c => c.notify v) := by
  rw [Signal.notify]
  simp [List.attach_map_val]

theorem notify_debounceK (d : Nat) (p : Option V) (val : Option V) (cs : List (Signal V)) (v : V) :
    Signal.notify (.mk (.debounceK d p) val cs) v
      = .mk (.debounceK d (some v)) val cs := by
  rw [Signal.notify]

theorem push_mk (k : SigKind V) (val : Option V) (cs : List (Signal V)) (v : V) :
    Signal.push (.mk k val cs) v = .mk k (some v) (cs.map fun c => c.notify v) := rfl

end NotifyLemmas

section FilterClaim

variable [DecidableEq V]

/-- C1: pushing into a parent a value on which a filter child's predicate is
false leaves the filter child — together with its whole subtree — unchanged,
while the parent and the siblings are updated as usual: the propagation wave
stops at the filter node for that push. -/
theorem filter_blocks_subtree (k : SigKind V) (pval : Option V)
    (pre post : List (Signal V)) (p : V → Bool) (cval : Option V) (ccs : List (Signal V))
    (v : V) (h : p v = false) :
    Signal.push (.mk k pval (pre ++ Signal.mk (.filterK p) cval ccs :: post)) v
      = .mk k (some v)
          (pre.map (fun c => c.notify v)
            ++ Signal.mk (.filterK p) cval ccs :: post.map (fun c => c.notify v)) := by
  rw [push_mk, List.map_append, List.map_cons, notify_filter_false _ _ _ _ h]

/-- Witness for C1, replaying the spec's example: a source holding 9, a filter
child `5 < v` holding 9 with a map child `v + 1` holding 10; pushing 3 leaves
the filter child and its map child untouched. -/
theorem filter_blocks_subtree_witness :
    Signal.push
        (Signal.mk (V := Nat) .source (some 9)
          (([] : List (Signal Nat)) ++ Signal.mk (.filterK fun v => decide (5 < v)) (some 9)
              [Signal.mk (.mapK (· + 1)) (some 10) []] :: []))
        3
      = Signal.mk .source (some 3)
          (List.map (fun c => c.notify 3) ([] : List (Signal Nat))
            ++ Signal.mk (.filterK fun v => decide (5 < v)) (some 9)
                [Signal.mk (.mapK (· + 1)) (some 10) []]
              :: List.map (fun c => c.notify 3) ([] : List (Signal Nat))) :=
  filter_blocks_subtree .source (some 9) [] []
    (fun v => decide (5 < v)) (some 9) [Signal.mk (.mapK (· + 1)) (some 10) []] 3 (by decide)

end FilterClaim

section FoldClaim

variable [DecidableEq V]

/-- After pushing `vs` into a source whose only child is a fold node with
accumulator `acc`, the fold child's accumulator is the left fold of `combine`
over `vs`. -/
theorem pushList_fold_child (combine : V → V → V) (vs : List V) :
    ∀ (pval : Option V) (acc : V) (ccs : List (Signal V)),
    ∃ (pval2 : Option V) (ccs2 : List (Signal V)),
      pushList (.mk .source pval [.mk (.foldK combine) (some acc) ccs]) vs
        = .mk .source pval2 [.mk (.foldK combine) (some (vs.foldl combine acc)) ccs2] := by
  induction vs with
  | nil => exact fun pval acc ccs => ⟨pval, ccs, rfl⟩
  | cons v rest ih =>
    intro pval acc ccs
    simpa [pushList, push_mk, notify_foldK] using
      ih (some v) (combine acc v) (ccs.map fun c => c.notify (combine acc v))

/-- C2: a fold child's value starts at its seed; each push `v` that reaches it
turns its value `acc` into `combine acc v` (which is then pushed onward), so
after pushing a whole sequence into the source feeding it, its value is the
left fold of `combine` over that sequence; in particular pushing
`h, e, l, l, o` through `fold (acc ++ next) ""` yields `"hello"`. -/
theorem fold_accumulates_pushes (combine : V → V → V) (acc : V)
    (cs : List (Signal V)) (v : V) (pval : Option V) (seed : V) (vs : List V) :
    (Signal.notify (.mk (.foldK combine) (some acc) cs) v).value = some (combine acc v)
    ∧ (∃ (pval2 : Option V) (ccs2 : List (Signal V)),
        pushList (.mk .source pval [.mk (.foldK combine) (some seed) []]) vs
          = .mk .source pval2 [.mk (.foldK combine) (some (vs.foldl combine seed)) ccs2])
    ∧ (pushList (Signal.mk (V := String) .source none [.mk (.foldK (· ++ ·)) (some "") []])
          ["h", "e", "l", "l", "o"]).children.map Signal.value
        = [some "hello"] := by
  refine ⟨by rw [notify_foldK]; rfl, pushList_fold_child combine vs pval seed [], ?_⟩
  simp [pushList, push_mk, notify_foldK, Signal.children, Signal.value]

end FoldClaim

section DropRepeatsClaim

variable [DecidableEq V]

/-- C3: a `dropRepeats` child delivers a parent push exactly when the pushed
value differs from the last value delivered to it (the comparison state is the
child's own held value, so the first push — child value `none` — is always
delivered); pushing `1,1,1,2,2,2,3` through `dropRepeats` into a counting fold
makes the counter read 1, then 2, then 3 after the three runs. -/
theorem dropRepeats_delivers_iff_changed (val : Option V) (cs : List (Signal V)) (v : V) :
    Signal.notify (.mk .dropRepeatsK val cs) v
      = (if val = some v then .mk .dropRepeatsK val cs
         else Signal.push (.mk .dropRepeatsK val cs) v)
    ∧ ([([1, 1, 1], 1), ([1, 1, 1, 2, 2, 2], 2), ([1, 1, 1, 2, 2, 2, 3], 3)].all
        fun lc : List Nat × Nat =>
          (pushList
              (Signal.mk (V := Nat) .source none
                [.mk .dropRepeatsK none [.mk (.foldK fun acc _ => acc + 1) (some 0) []]]) lc.1
            ).children.map (fun c => c.children.map Signal.value)
            == [[some lc.2]]) := by
  constructor
  · rw [notify_dropRepeats, push_mk]
  · simp [pushList, push_mk, notify_dropRepeats, notify_foldK,
      Signal.children, Signal.value]

end DropRepeatsClaim

section DebounceClaim

variable [DecidableEq V]

/-- A run of parent pushes into a debounce node with no timer firing in
between (pushes spaced closer than the delay) only keeps rescheduling the
timer: after the run the pending value is the last push and nothing was
delivered. -/
theorem notifyRun_debounce (d : Nat) (val : Option V) (cs : List (Signal V))
    (vs : List V) (v : V) :
    ∀ p0 : Option V,
    (vs ++ [v]).foldl Signal.notify (.mk (.debounceK d p0) val cs)
      = .mk (.debounceK d (some v)) val cs := by
  induction vs with
  | nil => intro p0; simp [notify_debounceK]
  | cons u rest ih =>
    intro p0
    simp only [List.cons_append, List.foldl_cons, notify_debounceK]
    exact ih (some u)

/-- C4: each parent push into a debounce node cancels the pending timer and
reschedules it with the pushed value; a run of pushes with no timer firing in
between (each spaced closer than the delay) delivers nothing and leaves the
last value pending, and when the timer finally fires exactly that last value
is delivered to the node by one normal push; a fold counter below a debounce
node therefore reads 1 after pushing `1..5` rapidly and firing once. -/
theorem debounce_delivers_last_once (d : Nat) (p0 : Option V) (val : Option V)
    (cs : List (Signal V)) (vs : List V) (v : V) :
    Signal.notify (.mk (.debounceK d p0) val cs) v = .mk (.debounceK d (some v)) val cs
    ∧ (vs ++ [v]).foldl Signal.notify (.mk (.debounceK d p0) val cs)
        = .mk (.debounceK d (some v)) val cs
    ∧ ((vs ++ [v]).foldl Signal.notify (.mk (.debounceK d p0) val cs)).fireTimer
        = .mk (.debounceK d none) (some v) (cs.map fun c => c.notify v)
    ∧ (let fired :=
        ((([1, 2, 3, 4] : List Nat) ++ [5]).foldl Signal.notify
            (.mk (.debounceK 20 none) none
              [.mk (.foldK fun acc _ => acc + 1) (some 0) []])).fireTimer
       fired.value = some 5 ∧ fired.children.map Signal.value = [some 1]) := by
  refine ⟨notify_debounceK d p0 val cs v, notifyRun_debounce d val cs vs v p0, ?_, ?_⟩
  · rw [notifyRun_debounce d val cs vs v p0]
    rw [Signal.fireTimer, push_mk]
  · rw [notifyRun_debounce 20 none _ [1, 2, 3, 4] 5 none]
    simp [Signal.fireTimer, push_mk, notify_foldK, Signal.children, Signal.value]

end DebounceClaim

section OnChangeClaim

variable [DecidableEq V]

/-- Modelled from the spec: the values an `onChange` observer receives from the
pushes performed after registration, given the signal's current value `cur`.
Every push sets the signal's value; the observer is called exactly when the
newly pushed value is not equal (the `isEqual` deep-equality helper, modelled
as decidable equality) to the signal's previous value. -/
def onChangeCalls : Option V → List V → List V
  | _, [] => []
  | cur, v :: rest =>
    if cur = some v then onChangeCalls (some v) rest
    else v :: onChangeCalls (some v) rest

/-- Modelled from the spec: everything an observer registered with `onChange`
is called with when, after registration, the given values are pushed to the
signal in order: one synchronous registration call with the current value when
the signal has one, then the change-filtered pushes. -/
def observeChange (s : Signal V) (vs : List V) : List V :=
  s.value.toList ++ onChangeCalls s.value vs

theorem cons_onChangeCalls (vs : List V) :
    ∀ a : V, a :: onChangeCalls (some a) vs = List.destutter' (· ≠ ·) a vs := by
  induction vs with
  | nil => intro a; simp [onChangeCalls]
  | cons v rest ih =>
    intro a
    by_cases h : a = v
    · subst h
      simp [onChangeCalls, List.destutter'_cons, ih]
    · simp [onChangeCalls, h, List.destutter'_cons, ih]

/-- C7: on a signal holding a value, an `onChange` observer is called once at
registration with the current value, and each subsequent push calls it exactly
when the pushed value differs from the signal's previous value — so the calls
are the destuttering of the current value followed by the pushes; in
particular `create 3` then `push 3` produces exactly the registration call. -/
theorem onChange_initial_and_changes (k : SigKind V) (a : V) (cs : List (Signal V))
    (vs : List V) :
    observeChange (.mk k (some a) cs) vs = List.destutter (· ≠ ·) (a :: vs)
    ∧ observeChange (Signal.create (V := Nat) (some 3)) [3] = [3] := by
  constructor
  · show a :: onChangeCalls (some a) vs = List.destutter' (· ≠ ·) a vs
    exact cons_onChangeCalls vs a
  · decide

end OnChangeClaim

section MergeClaim

/-- Modelled from the spec: the graph fragment created by `left.merge(right)` —
the two parent signals (standing for their whole other subtrees) and the
merged child, which is a child of both. -/
structure MergeGraph (V : Type) where
  left : Signal V
  right : Signal V
  merged : Signal V

/-- A push addressed to one of the two parents of a merge child. -/
inductive MergeEvent (V : Type) where
  | fromLeft (v : V)
  | fromRight (v : V)

/-- The value a merge-parent push carries. -/
def MergeEvent.value : MergeEvent V → V
  | .fromLeft v => v
  | .fromRight v => v

variable [DecidableEq V]

/-- Modelled from the spec: a push on either parent updates that parent (and
its other children) by a normal push, and delivers the pushed value to the
merged child, which handles it like any combinator child. -/
def MergeGraph.applyEvent (g : MergeGraph V) : MergeEvent V → MergeGraph V
  | .fromLeft v => ⟨g.left.push v, g.right, g.merged.notify v⟩
  | .fromRight v => ⟨g.left, g.right.push v, g.merged.notify v⟩

/-- An interleaved sequence of pushes to the two parents of a merge child. -/
def MergeGraph.applyEvents (g : MergeGraph V) (es : List (MergeEvent V)) : MergeGraph V :=
  es.foldl MergeGraph.applyEvent g

theorem notify_of_kind_merge (s : Signal V) (v : V) (h : s.kind = .mergeK) :
    s.notify v = .mk .mergeK (some v) (s.children.map fun c => c.notify v) := by
  obtain ⟨k, val, cs⟩ := s
  simp only [Signal.kind] at h
  subst h
  simp only [Signal.children]
  exact notify_mergeK val cs v

theorem merged_kind_preserved (es : List (MergeEvent V)) :
    ∀ g : MergeGraph V, g.merged.kind = .mergeK →
      (g.applyEvents es).merged.kind = .mergeK := by
  induction es with
  | nil => exact fun g h => h
  | cons e rest ih =>
    intro g h
    have h2 : (g.applyEvent e).merged.kind = .mergeK := by
      cases e <;> simp [MergeGraph.applyEvent, notify_of_kind_merge _ _ h, Signal.kind]
    simpa [MergeGraph.applyEvents] using ih (g.applyEvent e) h2

/-- C8: in a merge graph, a push on either parent is delivered to the merged
child as a normal push, so after any interleaved nonempty sequence of pushes
to the two parents the merged child's value is the value of the last push,
regardless of which parent received it. -/
theorem merge_reflects_last_push (g : MergeGraph V) (es : List (MergeEvent V))
    (e : MergeEvent V) (h : g.merged.kind = .mergeK) :
    ((g.applyEvents (es ++ [e])).merged).value = some e.value := by
  have hk := merged_kind_preserved es g h
  have hsplit : g.applyEvents (es ++ [e]) = (g.applyEvents es).applyEvent e := by
    simp [MergeGraph.applyEvents]
  rw [hsplit]
  cases e <;>
    simp [MergeGraph.applyEvent, notify_of_kind_merge _ _ hk, Signal.value, MergeEvent.value]

/-- Witness for C8, replaying the test: pushes `1, 2` to the left parent, `3`
to the right, `4` to the left, `5` to the right leave the merged child at 5. -/
theorem merge_reflects_last_push_witness :
    (Signal.mk (V := Nat) .mergeK none []).kind = .mergeK
    ∧ ((MergeGraph.mk (Signal.create none) (Signal.create none)
          (Signal.mk (V := Nat) .mergeK none [])).applyEvents
        ([.fromLeft 1, .fromLeft 2, .fromRight 3, .fromLeft 4] ++ [.fromRight 5])).merged.value
      = some (MergeEvent.fromRight (5 : Nat)).value :=
  ⟨rfl,
    merge_reflects_last_push
      (MergeGraph.mk (Signal.create none) (Signal.create none)
        (Signal.mk (V := Nat) .mergeK none []))
      [.fromLeft 1, .fromLeft 2, .fromRight 3, .fromLeft 4] (.fromRight 5) rfl⟩

end MergeClaim

/-!
The `Task` abstraction, translated from `src/unnamed/part_000`.

A `TaskComputation<E,V,P>` is a function taking a sinks object
(`reject` / `resolve` / `progress` callbacks) and returning nothing; the sinks
return nothing either, so a computation cannot observe anything through them
and its whole interaction with any sinks object is the sequence of sink calls
it makes, possibly cut short by a thrown exception.  We embed a computation as
exactly that observable behaviour: the list of sink calls it makes, and the
exception it throws after them (`none` when it returns normally).  `reject`'s
argument is an `Option E`, `none` standing for JavaScript `null`/`undefined`
(`Task.filter` rejects with `null`); thrown exceptions are modelled as values
of `E`, the type `run`'s catch handler feeds back into `reject`.
-/

/-- One call a task computation makes on its sinks object. -/
inductive TaskCall (E V P : Type) where
  | rejectCall (err : Option E)
  | resolveCall (val : V)
  | progressCall (prg : P)
deriving DecidableEq

/-- A task, embedded as the observable behaviour of its wrapped computation
`_fn`: the sink calls the computation makes, in order, and the exception it
then throws (`none` when it returns normally). -/
structure Task (E V P : Type) where
  calls : List (TaskCall E V P)
  thrown : Option E
deriving DecidableEq

/-- What `run` schedules on the event loop: the body of the `immediate` thunk,
`try { this._fn(sinks) } catch(e) { sinks.reject(e) }` — the computation's own
calls, then, when it throws, one `reject` carrying the exception; the
exception itself is swallowed, so the thunk always returns normally. -/
def tryCatch (t : Task E V P) : List (TaskCall E V P) × Option E :=
  match t.thrown with
  | some e => (t.calls ++ [.rejectCall (some e)], none)
  | none => (t.calls, none)

/-- The effect of one `Task.run` call, separating what happens synchronously,
before `run` returns, from what the scheduled thunk does when the event loop
runs it (and whether an exception escapes from that thunk to the scheduler). -/
structure RunEffect (E V P : Type) where
  syncCalls : List (TaskCall E V P)
  scheduled : List (TaskCall E V P)
  escaped : Option E
deriving DecidableEq

/-- Modelled from the spec: the external `immediate` scheduling primitive
(imported from the `utils` module, which is not among the source files) defers
its thunk to the next turn of the event loop — nothing of the thunk runs
synchronously. -/
def immediate (thunk : List (TaskCall E V P) × Option E) : RunEffect E V P :=
  ⟨[], thunk.1, thunk.2⟩

/-- Method `Task.run`: hands the whole try/catch-wrapped computation to `immediate`. -/
def Task.run (t : Task E V P) : RunEffect E V P :=
  immediate (tryCatch t)

/-- The calls a task's run delivers to its sinks once the scheduled thunk has
executed. -/
def Task.trace (t : Task E V P) : List (TaskCall E V P) :=
  (tryCatch t).1

/-- Method `Task.of`: a task whose computation calls `sinks.resolve(val)` and
returns. -/
def Task.of (v : V) : Task E V P :=
  ⟨[.resolveCall v], none⟩

/-- Type `TaskPredicate<T> = ((val: T) => boolean) | T`: a filter argument is
either a predicate callback or a literal value. -/
inductive TaskPredicate (V : Type) where
  | fnPred (f : V → Bool)
  | litPred (x : V)

/-- The `typeof predicate === 'function'` dispatch at the head of
`Task.filter`: a callback is used directly as the predicate, a literal is
normalized once into `isEqual(predicate)` — the equality test against the
literal (the `isEqual` deep-equality helper from the `utils` module, not among
the source files, is modelled from the spec as decidable equality). -/
def predicateFn [DecidableEq V] : TaskPredicate V → V → Bool
  | .fnPred f => f
  | .litPred x => fun v => v = x

/-- How the sinks object that `Task.filter` passes to `source.run` treats one
call made by the source: a `resolve` whose value passes `filterFn` is
forwarded to `resolve` unchanged, a `resolve` whose value fails it becomes
`reject(null)`, and `reject`/`progress` calls pass through untouched. -/
def filterStep [DecidableEq V] (filterFn : V → Bool) :
    TaskCall E V P → TaskCall E V P
  | .resolveCall v => if filterFn v then .resolveCall v else .rejectCall none
  | c => c

/-- Method `Task.filter`: its computation calls `source.run` with the filtering sinks,
so the calls it eventually delivers are the source's run trace transformed
call by call; the computation itself throws nothing. -/
def Task.filter [DecidableEq V] (t : Task E V P) (p : TaskPredicate V) : Task E V P :=
  ⟨t.trace.map (filterStep (predicateFn p)), none⟩

/-- Method `Task.validate`: an alias for `Task.filter`. -/
def Task.validate [DecidableEq V] (t : Task E V P) (p : TaskPredicate V) : Task E V P :=
  t.filter p

/-- Whether a sink call is a `resolve`. -/
def TaskCall.isResolveCall : TaskCall E V P → Bool
  | .resolveCall _ => true
  | _ => false

section TaskClaims

/-- C6: `Task.run` invokes nothing of the wrapped computation synchronously:
it only schedules the computation through the `immediate` primitive, so no
sink call happens before `run` returns, and every call the computation makes
happens in the scheduled thunk. -/
theorem task_run_defers_to_immediate (t : Task E V P) :
    (Task.run t).syncCalls = [] ∧ (Task.run t).scheduled = t.trace := by
  exact ⟨rfl, rfl⟩

/-- C9: when the wrapped computation throws, `Task.run`'s scheduled thunk
catches the exception and calls `sinks.reject` with it after the calls the
computation already made; the exception does not escape to the scheduler, and
the handler adds no `resolve` call — the resolve calls of the run are exactly
those the computation itself made. -/
theorem task_run_catches_throw (t : Task E V P) (e : E) (h : t.thrown = some e) :
    (Task.run t).scheduled = t.calls ++ [.rejectCall (some e)]
    ∧ (Task.run t).escaped = none
    ∧ (Task.run t).scheduled.filter TaskCall.isResolveCall
        = t.calls.filter TaskCall.isResolveCall := by
  refine ⟨?_, ?_, ?_⟩ <;>
    simp [Task.run, immediate, tryCatch, h, TaskCall.isResolveCall]

/-- Witness for C9: a computation over `E = V = P = Nat` that makes no calls
and throws `7` yields a run that schedules exactly `reject (some 7)`. -/
theorem task_run_catches_throw_witness :
    (Task.run (⟨[], some 7⟩ : Task Nat Nat Nat)).scheduled
        = [] ++ [.rejectCall (some 7)]
    ∧ (Task.run (⟨[], some 7⟩ : Task Nat Nat Nat)).escaped = none
    ∧ (Task.run (⟨[], some 7⟩ : Task Nat Nat Nat)).scheduled.filter
          TaskCall.isResolveCall
        = ([] : List (TaskCall Nat Nat Nat)).filter TaskCall.isResolveCall :=
  task_run_catches_throw ⟨[], some 7⟩ 7 rfl

/-- C5: `Task.filter` given a literal normalizes it once into an equality test
(`predicateFn`), so filtering a task that resolves `v` with the literal `x`
resolves `v` exactly when `v = x` and rejects (with `null`) otherwise; a
function argument is used directly as the predicate, and `validate` is the
same operation as `filter`. -/
theorem task_filter_literal_normalization [DecidableEq V] (x v : V) (f : V → Bool) :
    Task.trace ((Task.of (E := E) (P := P) v).filter (.litPred x))
        = (if v = x then [.resolveCall v] else [.rejectCall none])
    ∧ predicateFn (.fnPred f) = f
    ∧ (Task.of (E := E) (P := P) v).validate (.litPred x)
        = (Task.of v).filter (.litPred x) := by
  refine ⟨?_, rfl, rfl⟩
  by_cases h : v = x <;>
    simp [Task.filter, Task.trace, Task.of, tryCatch, filterStep, predicateFn, h]

/-- C10: when a filtered task runs and the source resolves a value failing the
predicate, the downstream `reject` sink is called with `null` (not with the
value, and not with a source error), while a passing value is forwarded to
`resolve` unchanged; a source `reject` passes through the filter untouched. -/
theorem task_filter_rejects_null [DecidableEq V] (v : V) (f : V → Bool) (e : E) :
    Task.trace ((Task.of (E := E) (P := P) v).filter (.fnPred f))
        = (if f v then [.resolveCall v] else [.rejectCall none])
    ∧ Task.trace ((⟨[.rejectCall (some e)], none⟩ : Task E V P).filter (.fnPred f))
        = [.rejectCall (some e)] := by
  constructor
  · by_cases h : f v <;>
      simp [Task.filter, Task.trace, Task.of, tryCatch, filterStep, predicateFn, h]
  · simp [Task.filter, Task.trace, tryCatch, filterStep, predicateFn]

end TaskClaims

end Frampton
